import Mathlib

/-!
Shallow embedding of `src/matrix.cpp`, a pthread-based square matrix
multiplication benchmark.  Matrices are modelled as total functions
`Nat → Nat → Int`; the C `long` (64-bit two's complement) arithmetic of the
accumulation loop is modelled by explicit wrapping modulo `2 ^ 64`; the
row loops of `multiply` / `multiply_range` become folds of single-cell
writes; the range-partitioning loop of `main` becomes `mkRanges`; the
`atoi`-based worker-count parsing of `main` becomes `atoi` / `workerCount`.
-/

/-- A square matrix of 64-bit signed integers, row-major, modelled as a total
function on indices (the C globals are `long matrix_x[DIM][DIM]`). -/
def Mat : Type := Nat → Nat → Int

/-- The fixed dimension of the C program (`constexpr int DIM = 1000`).  The
development below is parametric in the dimension `N`; `DIM` is its concrete
value in the source. -/
def DIM : Nat := 1000

/-- Two's-complement wrap of an integer into the 64-bit signed range
`[-2^63, 2^63)`, the semantics of C `long` overflow on an LP64 platform. -/
def wrap64 (x : Int) : Int := (x + 2 ^ 63) % 2 ^ 64 - 2 ^ 63

lemma wrap64_shift (x m : Int) : wrap64 (x + 2 ^ 64 * m) = wrap64 x := by
  unfold wrap64
  rw [add_right_comm, Int.add_mul_emod_self_left]

lemma wrap64_spec (x : Int) : ∃ m : Int, wrap64 x = x + 2 ^ 64 * m := by
  refine ⟨-((x + 2 ^ 63) / 2 ^ 64), ?_⟩
  unfold wrap64
  rw [Int.emod_def]
  ring

lemma wrap64_add_left (x y : Int) : wrap64 (wrap64 x + y) = wrap64 (x + y) := by
  obtain ⟨m, hm⟩ := wrap64_spec x
  rw [hm, add_right_comm, wrap64_shift]

lemma wrap64_add_right (x y : Int) : wrap64 (x + wrap64 y) = wrap64 (x + y) := by
  obtain ⟨m, hm⟩ := wrap64_spec y
  rw [hm, ← add_assoc, wrap64_shift]

lemma wrap64_bounds (x : Int) : -(2 ^ 63) ≤ wrap64 x ∧ wrap64 x < 2 ^ 63 := by
  have h1 : 0 ≤ (x + 2 ^ 63) % 2 ^ 64 := Int.emod_nonneg _ (by norm_num)
  have h2 : (x + 2 ^ 63) % 2 ^ 64 < 2 ^ 64 := Int.emod_lt_of_pos _ (by norm_num)
  have h3 : (2 : Int) ^ 64 = 2 ^ 63 + 2 ^ 63 := by norm_num
  unfold wrap64
  constructor
  · linarith
  · linarith

lemma wrap64_eq_self (x : Int) (h1 : -(2 ^ 63) ≤ x) (h2 : x < 2 ^ 63) :
    wrap64 x = x := by
  have h3 : (2 : Int) ^ 64 = 2 ^ 63 + 2 ^ 63 := by norm_num
  unfold wrap64
  rw [Int.emod_eq_of_lt (by linarith) (by linarith)]
  ring

/-- The inner-product loop of `multiply` / `multiply_range`:
`long sum = 0; for (k = 0; k < N; ++k) sum += arow[k] * browt[k];` with the
multiplication and the running addition both wrapping in 64-bit arithmetic. -/
def dotWrap (a b : Nat → Int) (N : Nat) : Int :=
  (List.range N).foldl (fun s k => wrap64 (s + wrap64 (a k * b k))) 0

lemma dotWrap_succ (a b : Nat → Int) (N : Nat) :
    dotWrap a b (N + 1) = wrap64 (dotWrap a b N + wrap64 (a N * b N)) := by
  unfold dotWrap
  rw [List.range_succ, List.foldl_append]
  rfl

/-- The wrapped accumulation computes the two's-complement wrap of the exact
mathematical inner product. -/
lemma dotWrap_eq (a b : Nat → Int) (N : Nat) :
    dotWrap a b N = wrap64 (Finset.sum (Finset.range N) fun k => a k * b k) := by
  induction N with
  | zero =>
      simp only [dotWrap, List.range_zero, List.foldl_nil, Finset.range_zero,
        Finset.sum_empty]
      rw [wrap64_eq_self 0 (by norm_num) (by norm_num)]
  | succ n ih =>
      rw [dotWrap_succ, ih, wrap64_add_left, wrap64_add_right,
        Finset.sum_range_succ]

/-- A single assignment `matrix_c[i][j] = v` as a function update. -/
def writeCell (C : Mat) (i j : Nat) (v : Int) : Mat :=
  fun a b => if a = i ∧ b = j then v else C a b

/-- The inner `j` loop shared by `multiply` and `multiply_range`: for every
column `j` in `[0, N)`, store the wrapped inner product of row `i` of `A` and
row `j` of the transposed operand into `C[i][j]`. -/
def rowLoop (A Bt : Mat) (N i : Nat) (C : Mat) : Mat :=
  (List.range N).foldl (fun c j => writeCell c i j (dotWrap (A i) (Bt j) N)) C

/-- The worker body `multiply_range` (barrier wait elided: it only orders the
writes in time): rows `[s, e)` of `C` are overwritten column by column. -/
def multiplyRange (A Bt : Mat) (N s e : Nat) (C : Mat) : Mat :=
  (List.range' s (e - s)).foldl (fun c i => rowLoop A Bt N i c) C

/-- The serial routine `multiply`: all rows `[0, N)`. -/
def multiply (A Bt : Mat) (N : Nat) (C : Mat) : Mat :=
  (List.range N).foldl (fun c i => rowLoop A Bt N i c) C

lemma writeCell_apply (C : Mat) (i j : Nat) (v : Int) (a b : Nat) :
    writeCell C i j v a b = if a = i ∧ b = j then v else C a b := rfl

lemma foldl_writeRow (f : Nat → Int) (i : Nat) (C : Mat) (M : Nat) (a b : Nat) :
    ((List.range M).foldl (fun c j => writeCell c i j (f j)) C) a b =
      if a = i ∧ b < M then f b else C a b := by
  induction M generalizing C with
  | zero => simp
  | succ m ih =>
      rw [List.range_succ, List.foldl_append, List.foldl_cons, List.foldl_nil]
      show writeCell ((List.range m).foldl (fun c j => writeCell c i j (f j)) C)
          i m (f m) a b = _
      rw [writeCell_apply, ih]
      by_cases h1 : a = i ∧ b = m
      · rw [if_pos h1, if_pos ⟨h1.1, by omega⟩, h1.2]
      · rw [if_neg h1]
        by_cases h2 : a = i ∧ b < m
        · rw [if_pos h2, if_pos ⟨h2.1, by omega⟩]
        · rw [if_neg h2, if_neg]
          rintro ⟨hai, hb⟩
          rcases Nat.lt_succ_iff_lt_or_eq.mp hb with h | h
          · exact h2 ⟨hai, h⟩
          · exact h1 ⟨hai, h⟩

lemma rowLoop_apply (A Bt : Mat) (N i : Nat) (C : Mat) (a b : Nat) :
    rowLoop A Bt N i C a b =
      if a = i ∧ b < N then dotWrap (A a) (Bt b) N else C a b := by
  unfold rowLoop
  rw [foldl_writeRow]
  by_cases h : a = i ∧ b < N
  · rw [if_pos h, if_pos h, h.1]
  · rw [if_neg h, if_neg h]

lemma foldl_rowLoop_apply (A Bt : Mat) (N : Nat) (n s : Nat) (C : Mat)
    (a b : Nat) :
    ((List.range' s n).foldl (fun c i => rowLoop A Bt N i c) C) a b =
      if s ≤ a ∧ a < s + n ∧ b < N then dotWrap (A a) (Bt b) N else C a b := by
  induction n generalizing s C with
  | zero =>
      rw [show List.range' s 0 = [] from rfl, List.foldl_nil, if_neg]
      rintro ⟨h1, h2, _⟩
      omega
  | succ m ih =>
      rw [List.range'_succ, List.foldl_cons, ih, rowLoop_apply]
      by_cases h1 : s + 1 ≤ a ∧ a < s + 1 + m ∧ b < N
      · rw [if_pos h1, if_pos ⟨by omega, by omega, h1.2.2⟩]
      · rw [if_neg h1]
        by_cases h2 : a = s ∧ b < N
        · rw [if_pos h2, if_pos ⟨by omega, by omega, h2.2⟩]
        · rw [if_neg h2, if_neg]
          rintro ⟨ha1, ha2, hb⟩
          rcases Nat.lt_or_ge a (s + 1) with h | h
          · exact h2 ⟨by omega, hb⟩
          · exact h1 ⟨h, by omega, hb⟩

/-- Pointwise description of `multiply_range`: exactly the cells
`(i, j)` with `s ≤ i < e` and `j < N` are overwritten with the wrapped inner
product; every other cell keeps its previous value. -/
lemma multiplyRange_apply (A Bt : Mat) (N s e : Nat) (C : Mat) (a b : Nat) :
    multiplyRange A Bt N s e C a b =
      if s ≤ a ∧ a < e ∧ b < N then dotWrap (A a) (Bt b) N else C a b := by
  unfold multiplyRange
  rw [foldl_rowLoop_apply]
  by_cases h1 : s ≤ a ∧ a < s + (e - s) ∧ b < N
  · rw [if_pos h1, if_pos ⟨h1.1, by omega, h1.2.2⟩]
  · rw [if_neg h1, if_neg]
    rintro ⟨ha1, ha2, hb⟩
    exact h1 ⟨ha1, by omega, hb⟩

/-- Pointwise description of the serial `multiply`. -/
lemma multiply_apply (A Bt : Mat) (N : Nat) (C : Mat) (a b : Nat) :
    multiply A Bt N C a b =
      if a < N ∧ b < N then dotWrap (A a) (Bt b) N else C a b := by
  unfold multiply
  rw [List.range_eq_range', foldl_rowLoop_apply]
  by_cases h1 : a < N ∧ b < N
  · rw [if_pos ⟨by omega, by omega, h1.2⟩, if_pos h1]
  · rw [if_neg, if_neg h1]
    rintro ⟨_, ha, hb⟩
    exact h1 ⟨by omega, hb⟩

/-- The range-partitioning loop of `main`:
`base = N / T`, `rem = N % T`, and worker `t` (counting from 0, current start
offset `s`) receives rows `[s, s + base + (t < rem ? 1 : 0))`. -/
def mkRanges (base rem : Nat) : Nat → Nat → Nat → List (Nat × Nat)
  | _, _, 0 => []
  | s, t, cnt + 1 =>
      (s, s + (base + if t < rem then 1 else 0)) ::
        mkRanges base rem (s + (base + if t < rem then 1 else 0)) (t + 1) cnt

/-- The row ranges `main` hands to the `T` workers for dimension `N`. -/
def partitionRanges (N T : Nat) : List (Nat × Nat) :=
  mkRanges (N / T) (N % T) 0 0 T

/-- Start row of worker `t` in the partition: closed form of the running
`start` variable of the loop. -/
def offStart (base rem t : Nat) : Nat := t * base + min t rem

lemma offStart_zero (base rem : Nat) : offStart base rem 0 = 0 := by
  simp [offStart]

lemma offStart_succ (base rem t : Nat) :
    offStart base rem (t + 1) =
      offStart base rem t + (base + if t < rem then 1 else 0) := by
  unfold offStart
  rw [Nat.succ_mul]
  split_ifs with h <;> omega

lemma offStart_mono (base rem : Nat) {u v : Nat} (h : u ≤ v) :
    offStart base rem u ≤ offStart base rem v := by
  unfold offStart
  exact Nat.add_le_add (Nat.mul_le_mul_right base h)
    (min_le_min h (le_refl rem))

lemma offStart_strict (base rem t : Nat) (hb : 1 ≤ base) :
    offStart base rem t < offStart base rem (t + 1) := by
  rw [offStart_succ]
  split_ifs <;> omega

lemma offStart_top (N T : Nat) (hT : 1 ≤ T) :
    offStart (N / T) (N % T) T = N := by
  unfold offStart
  have h1 : N % T < T := Nat.mod_lt _ hT
  have h2 : min T (N % T) = N % T := by omega
  rw [h2]
  exact Nat.div_add_mod N T

lemma mkRanges_eq (base rem : Nat) (cnt : Nat) : ∀ t : Nat,
    mkRanges base rem (offStart base rem t) t cnt =
      (List.range cnt).map
        (fun m => (offStart base rem (t + m), offStart base rem (t + m + 1))) := by
  induction cnt with
  | zero => intro t; simp [mkRanges]
  | succ n ih =>
      intro t
      rw [mkRanges]
      have hrow : offStart base rem t + (base + if t < rem then 1 else 0) =
          offStart base rem (t + 1) := (offStart_succ base rem t).symm
      rw [hrow, ih (t + 1), List.range_succ_eq_map, List.map_cons,
        List.map_map]
      refine congrArg₂ List.cons (by simp) ?_
      refine List.map_congr_left ?_
      intro m _
      show (offStart base rem (t + 1 + m), offStart base rem (t + 1 + m + 1)) =
        (offStart base rem (t + (m + 1)), offStart base rem (t + (m + 1) + 1))
      rw [show t + 1 + m = t + (m + 1) by omega]

lemma partitionRanges_eq (N T : Nat) :
    partitionRanges N T =
      (List.range T).map
        (fun t => (offStart (N / T) (N % T) t, offStart (N / T) (N % T) (t + 1))) := by
  have h := mkRanges_eq (N / T) (N % T) T 0
  rw [offStart_zero] at h
  unfold partitionRanges
  rw [h]
  refine List.map_congr_left ?_
  intro m _
  rw [Nat.zero_add]

lemma offStart_cover (base rem T i : Nat)
    (hi : i < offStart base rem T) :
    ∃ t, t < T ∧ offStart base rem t ≤ i ∧ i < offStart base rem (t + 1) := by
  induction T with
  | zero => rw [offStart_zero] at hi; omega
  | succ n ih =>
      by_cases h : i < offStart base rem n
      · obtain ⟨t, ht, h1, h2⟩ := ih h
        exact ⟨t, by omega, h1, h2⟩
      · exact ⟨n, by omega, by omega, hi⟩

/-- Folding the worker body over a list of row ranges, as `main` does by
spawning one `multiply_range` worker per range and joining them all (the
workers write disjoint cells whose values do not depend on `C`, so the
sequential fold is the program's result). -/
def runRanges (A Bt : Mat) (N : Nat) (rs : List (Nat × Nat)) (C : Mat) : Mat :=
  rs.foldl (fun c r => multiplyRange A Bt N r.1 r.2 c) C

/-- The whole partitioned multiplication of `main` for dimension `N` and
worker count `T`. -/
def runPartition (A Bt : Mat) (N T : Nat) (C : Mat) : Mat :=
  runRanges A Bt N (partitionRanges N T) C

lemma runRanges_apply (A Bt : Mat) (N : Nat) (rs : List (Nat × Nat)) (C : Mat)
    (a b : Nat) :
    runRanges A Bt N rs C a b =
      if (∃ r ∈ rs, r.1 ≤ a ∧ a < r.2) ∧ b < N then dotWrap (A a) (Bt b) N
      else C a b := by
  induction rs generalizing C with
  | nil =>
      rw [runRanges, List.foldl_nil, if_neg]
      rintro ⟨⟨r, hr, _⟩, _⟩
      exact absurd hr (List.not_mem_nil r)
  | cons r rs ih =>
      rw [runRanges, List.foldl_cons]
      rw [show (rs.foldl (fun c r => multiplyRange A Bt N r.1 r.2 c)
        (multiplyRange A Bt N r.1 r.2 C)) = runRanges A Bt N rs
        (multiplyRange A Bt N r.1 r.2 C) from rfl]
      rw [ih, multiplyRange_apply]
      by_cases hb : b < N
      · by_cases h1 : ∃ r2 ∈ rs, r2.1 ≤ a ∧ a < r2.2
        · rw [if_pos ⟨h1, hb⟩, if_pos]
          obtain ⟨r2, hr2, hcov⟩ := h1
          exact ⟨⟨r2, List.mem_cons_of_mem r hr2, hcov⟩, hb⟩
        · rw [if_neg (by rintro ⟨h, _⟩; exact h1 h)]
          by_cases h2 : r.1 ≤ a ∧ a < r.2
          · rw [if_pos ⟨h2.1, h2.2, hb⟩, if_pos ⟨⟨r, List.mem_cons_self r rs, h2⟩, hb⟩]
          · rw [if_neg (by rintro ⟨hr1, hr2, _⟩; exact h2 ⟨hr1, hr2⟩), if_neg]
            rintro ⟨⟨r2, hr2, hcov⟩, _⟩
            rcases List.mem_cons.mp hr2 with h | h
            · exact h2 (h ▸ hcov)
            · exact h1 ⟨r2, h, hcov⟩
      · rw [if_neg (by rintro ⟨_, h⟩; exact hb h),
          if_neg (by rintro ⟨_, _, h⟩; exact hb h),
          if_neg (by rintro ⟨_, h⟩; exact hb h)]

/-- Every row below `N` is covered by some produced range, and every produced
range stays below `N`, when `1 ≤ T ≤ N`. -/
lemma partition_covers (N T : Nat) (hT1 : 1 ≤ T) (_hTN : T ≤ N) (a : Nat) :
    (∃ r ∈ partitionRanges N T, r.1 ≤ a ∧ a < r.2) ↔ a < N := by
  rw [partitionRanges_eq]
  constructor
  · rintro ⟨r, hr, h1, h2⟩
    obtain ⟨t, ht, rfl⟩ := List.mem_map.mp hr
    have hend : offStart (N / T) (N % T) (t + 1) ≤ offStart (N / T) (N % T) T :=
      offStart_mono _ _ (List.mem_range.mp ht)
    rw [offStart_top N T hT1] at hend
    exact lt_of_lt_of_le h2 hend
  · intro ha
    have hcov := offStart_cover (N / T) (N % T) T a
      (by rw [offStart_top N T hT1]; exact ha)
    obtain ⟨t, ht, h1, h2⟩ := hcov
    exact ⟨(offStart (N / T) (N % T) t, offStart (N / T) (N % T) (t + 1)),
      List.mem_map.mpr ⟨t, List.mem_range.mpr ht, rfl⟩, h1, h2⟩

/-- The partitioned run over the produced ranges equals the serial
`multiply`, for any valid worker count. -/
lemma runPartition_eq_multiply (A Bt : Mat) (N T : Nat) (C : Mat)
    (hT1 : 1 ≤ T) (hTN : T ≤ N) :
    runPartition A Bt N T C = multiply A Bt N C := by
  funext a b
  rw [runPartition, runRanges_apply, multiply_apply]
  by_cases hb : b < N
  · by_cases ha : a < N
    · rw [if_pos ⟨(partition_covers N T hT1 hTN a).mpr ha, hb⟩, if_pos ⟨ha, hb⟩]
    · rw [if_neg, if_neg (by rintro ⟨h, _⟩; exact ha h)]
      rintro ⟨h, _⟩
      exact ha ((partition_covers N T hT1 hTN a).mp h)
  · rw [if_neg (by rintro ⟨_, h⟩; exact hb h),
      if_neg (by rintro ⟨_, h⟩; exact hb h)]

/-- Operand A from `init`: `matrix_a[i][j] = i + j` on the `N × N` grid (cells
outside the written region keep the zero the C globals start with). -/
def matA (N : Nat) : Mat :=
  fun i j => if i < N ∧ j < N then (i : Int) + j else 0

/-- Operand B from `init`: `matrix_b[i][j] = i - j`. -/
def matB (N : Nat) : Mat :=
  fun i j => if i < N ∧ j < N then (i : Int) - j else 0

/-- The transposition pass of `init`: `matrix_b_t[j][i] = B[i][j]` for every
`i, j` in `[0, N)`. -/
def transposeMat (B : Mat) (N : Nat) : Mat :=
  fun j i => if i < N ∧ j < N then B i j else 0

/-- The transposed copy the program actually builds. -/
def matBt (N : Nat) : Mat := transposeMat (matB N) N

/-- Result matrix after `init`: `matrix_c[i][j] = 0` everywhere. -/
def matC0 : Mat := fun _ _ => 0

/-- Model of C `atoi` digit accumulation: consume the longest decimal-digit
run, accumulating left to right. -/
def digitsVal : List Char → Nat → Nat
  | [], acc => acc
  | c :: cs, acc =>
      if c.isDigit then digitsVal cs (acc * 10 + (c.toNat - 48)) else acc

/-- Whitespace as skipped by `atoi` (C `isspace`). -/
def isSpaceC (c : Char) : Bool :=
  c == ' ' || c == '\t' || c == '\n' || c == '\x0b' || c == '\x0c' || c == '\r'

/-- Model of C `atoi`: skip whitespace, read an optional sign, then the
longest decimal-digit run; an argument with no digits at that point
yields 0. -/
def atoi (cs : List Char) : Int :=
  match cs.dropWhile isSpaceC with
  | '-' :: rest => -(digitsVal rest 0 : Int)
  | '+' :: rest => (digitsVal rest 0 : Int)
  | rest => (digitsVal rest 0 : Int)

/-- Worker-count selection of `main`: default 4; an argument replaces it only
when it parses (via `atoi`) to a positive value. -/
def workerCount : Option (List Char) → Int
  | none => 4
  | some cs => if atoi cs > 0 then atoi cs else 4

/-- The clamp `if (nthreads > DIM) nthreads = DIM;` of `main`, parametric in
the dimension. -/
def clampThreads (nthreads N : Nat) : Nat :=
  if nthreads > N then N else nthreads

lemma partition_getD (N T : Nat) (t : Nat) (h : t < T) :
    (partitionRanges N T).getD t (0, 0) =
      (offStart (N / T) (N % T) t, offStart (N / T) (N % T) (t + 1)) := by
  rw [partitionRanges_eq, List.getD_eq_getElem?_getD, List.getElem?_map,
    List.getElem?_range h]
  rfl

lemma partition_cover_unique (N T i : Nat) (hT1 : 1 ≤ T) (hi : i < N) :
    ∃! t, t < T ∧ offStart (N / T) (N % T) t ≤ i ∧
      i < offStart (N / T) (N % T) (t + 1) := by
  obtain ⟨t, ht, h1, h2⟩ := offStart_cover (N / T) (N % T) T i
    (by rw [offStart_top N T hT1]; exact hi)
  refine ⟨t, ⟨ht, h1, h2⟩, ?_⟩
  rintro u ⟨hu, hu1, hu2⟩
  by_contra hne
  rcases Nat.lt_or_ge u t with h | h
  · have hle : offStart (N / T) (N % T) (u + 1) ≤ offStart (N / T) (N % T) t :=
      offStart_mono _ _ h
    omega
  · have ht' : t < u := by omega
    have hle : offStart (N / T) (N % T) (t + 1) ≤ offStart (N / T) (N % T) u :=
      offStart_mono _ _ ht'
    omega

/-- C1: for every dimension `N`, every worker count `T` with `1 ≤ T ≤ N`, and
every pair of operands, the partitioned multiplication over the ranges
produced for `T` workers fills every cell `(i, j)` of `[0,N) × [0,N)` with
the 64-bit accumulation of `Σ_k A[i][k] * B[k][j]` — exactly the
mathematical sum whenever that sum fits in the signed 64-bit range — and the
resulting matrix `C` is identical for every such `T`. -/
theorem partitioned_product_correct (N T : Nat) (A B : Mat)
    (hT1 : 1 ≤ T) (hTN : T ≤ N) :
    (∀ i j, i < N → j < N →
      runPartition A (transposeMat B N) N T matC0 i j =
        wrap64 (Finset.sum (Finset.range N) fun k => A i k * B k j)) ∧
    (∀ i j, i < N → j < N →
      -(2 ^ 63) ≤ (Finset.sum (Finset.range N) fun k => A i k * B k j) →
      (Finset.sum (Finset.range N) fun k => A i k * B k j) < 2 ^ 63 →
      runPartition A (transposeMat B N) N T matC0 i j =
        Finset.sum (Finset.range N) fun k => A i k * B k j) ∧
    (∀ T2, 1 ≤ T2 → T2 ≤ N →
      runPartition A (transposeMat B N) N T matC0 =
        runPartition A (transposeMat B N) N T2 matC0) := by
  have key : ∀ i j, i < N → j < N →
      runPartition A (transposeMat B N) N T matC0 i j =
        wrap64 (Finset.sum (Finset.range N) fun k => A i k * B k j) := by
    intro i j hi hj
    rw [runPartition_eq_multiply A _ N T matC0 hT1 hTN, multiply_apply,
      if_pos ⟨hi, hj⟩, dotWrap_eq]
    congr 1
    refine Finset.sum_congr rfl ?_
    intro k hk
    have hkN : k < N := Finset.mem_range.mp hk
    show A i k * transposeMat B N j k = A i k * B k j
    unfold transposeMat
    rw [if_pos ⟨hkN, hj⟩]
  refine ⟨key, ?_, ?_⟩
  · intro i j hi hj hlo hhi
    rw [key i j hi hj, wrap64_eq_self _ hlo hhi]
  · intro T2 h1 h2
    rw [runPartition_eq_multiply A _ N T matC0 hT1 hTN,
      runPartition_eq_multiply A _ N T2 matC0 h1 h2]

theorem partitioned_product_correct_witness :
    runPartition (matA 2) (transposeMat (matB 2) 2) 2 1 matC0 0 1 =
      wrap64 (Finset.sum (Finset.range 2) fun k => matA 2 0 k * matB 2 k 1) :=
  (partitioned_product_correct 2 1 (matA 2) (matB 2) (by decide) (by decide)).1
    0 1 (by decide) (by decide)

/-- C2: for `1 ≤ T ≤ N` the `T` produced row ranges are contiguous half-open
intervals starting at row 0, pairwise disjoint and in increasing order, all
nonempty, ending exactly at `N`, covering every row of `[0, N)` exactly
once, with the first `N mod T` ranges of size `N div T + 1` and the rest of
size `N div T`; when `T = N` every range has exactly one row. -/
theorem partition_ranges_spec (N T : Nat) (hT1 : 1 ≤ T) (hTN : T ≤ N) :
    (partitionRanges N T).length = T ∧
    ((partitionRanges N T).getD 0 (0, 0)).1 = 0 ∧
    (∀ t, t + 1 < T →
      ((partitionRanges N T).getD (t + 1) (0, 0)).1 =
        ((partitionRanges N T).getD t (0, 0)).2) ∧
    (∀ t, t < T →
      ((partitionRanges N T).getD t (0, 0)).1 <
        ((partitionRanges N T).getD t (0, 0)).2) ∧
    (∀ t u, t < u → u < T →
      ((partitionRanges N T).getD t (0, 0)).2 ≤
        ((partitionRanges N T).getD u (0, 0)).1) ∧
    ((partitionRanges N T).getD (T - 1) (0, 0)).2 = N ∧
    (∀ i, i < N → ∃! t, t < T ∧
      ((partitionRanges N T).getD t (0, 0)).1 ≤ i ∧
      i < ((partitionRanges N T).getD t (0, 0)).2) ∧
    (∀ t, t < T →
      ((partitionRanges N T).getD t (0, 0)).2 -
        ((partitionRanges N T).getD t (0, 0)).1 =
          N / T + if t < N % T then 1 else 0) ∧
    (T = N → ∀ t, t < T →
      ((partitionRanges N T).getD t (0, 0)).2 -
        ((partitionRanges N T).getD t (0, 0)).1 = 1) := by
  have hb : 1 ≤ N / T := (Nat.one_le_div_iff (by omega)).mpr hTN
  have hget := partition_getD N T
  refine ⟨?_, ?_, ?_, ?_, ?_, ?_, ?_, ?_, ?_⟩
  · rw [partitionRanges_eq, List.length_map, List.length_range]
  · rw [hget 0 (by omega)]
    exact offStart_zero _ _
  · intro t h
    rw [hget (t + 1) h, hget t (by omega)]
  · intro t h
    rw [hget t h]
    exact offStart_strict _ _ t hb
  · intro t u htu hu
    rw [hget t (by omega), hget u hu]
    exact offStart_mono _ _ htu
  · rw [hget (T - 1) (by omega)]
    show offStart (N / T) (N % T) (T - 1 + 1) = N
    rw [show T - 1 + 1 = T by omega]
    exact offStart_top N T hT1
  · intro i hi
    obtain ⟨t, ⟨ht, h1, h2⟩, huniq⟩ := partition_cover_unique N T i hT1 hi
    refine ⟨t, ⟨ht, ?_, ?_⟩, ?_⟩
    · rw [hget t ht]
      exact h1
    · rw [hget t ht]
      exact h2
    · rintro u ⟨hu, hu1, hu2⟩
      rw [hget u hu] at hu1 hu2
      exact huniq u ⟨hu, hu1, hu2⟩
  · intro t h
    rw [hget t h]
    show offStart (N / T) (N % T) (t + 1) - offStart (N / T) (N % T) t = _
    rw [offStart_succ]
    split_ifs <;> omega
  · intro hTN2 t h
    rw [hget t h]
    show offStart (N / T) (N % T) (t + 1) - offStart (N / T) (N % T) t = 1
    rw [offStart_succ, hTN2, Nat.div_self (by omega), Nat.mod_self]
    simp

theorem partition_ranges_spec_witness :
    (partitionRanges 5 3).length = 3 :=
  (partition_ranges_spec 5 3 (by decide) (by decide)).1

/-- C3: after the layout-preparation step, the transposed operand satisfies
`TransposedB[j][i] = B[i][j]` for every `(i, j)` with `0 ≤ i, j < N`, and the
result matrix is initialized to all zeros. -/
theorem init_transpose_zero (N : Nat) (B : Mat) (i j : Nat)
    (hi : i < N) (hj : j < N) :
    transposeMat B N j i = B i j ∧ matC0 i j = 0 := by
  constructor
  · show (if i < N ∧ j < N then B i j else 0) = B i j
    rw [if_pos ⟨hi, hj⟩]
  · rfl

theorem init_transpose_zero_witness :
    transposeMat (matB 3) 3 2 1 = matB 3 1 2 ∧ matC0 1 2 = 0 :=
  init_transpose_zero 3 (matB 3) 1 2 (by decide) (by decide)

set_option maxRecDepth 100000 in
/-- C4: with `A[i][j] = i + j`, `B[i][j] = i - j` and `N = 4`, the computed
product (partitioned run with the program's default worker count 4) has
`C[0][0] = 14` and `C[1][1] = 10`. -/
theorem concrete_product_N4 :
    runPartition (matA 4) (matBt 4) 4 4 matC0 0 0 = 14 ∧
    runPartition (matA 4) (matBt 4) 4 4 matC0 1 1 = 10 := by
  decide

/-- C5: the effective worker count is `min T N` — whenever the requested `T`
exceeds `N` it is clamped down to `N` before partitioning — and no range the
partitioner then produces is empty. -/
theorem clamp_spec (t N : Nat) (ht : 1 ≤ t) (hN : 1 ≤ N) :
    clampThreads t N = min t N ∧
    (t > N → clampThreads t N = N) ∧
    (∀ r ∈ partitionRanges N (clampThreads t N), r.1 < r.2) := by
  have hmin : clampThreads t N = min t N := by
    unfold clampThreads
    split_ifs <;> omega
  refine ⟨hmin, fun h => by rw [hmin]; omega, ?_⟩
  intro r hr
  have h2 : clampThreads t N ≤ N := by
    rw [hmin]
    omega
  have hb : 1 ≤ N / clampThreads t N := (Nat.one_le_div_iff (by rw [hmin]; omega)).mpr h2
  rw [partitionRanges_eq] at hr
  obtain ⟨u, hu, rfl⟩ := List.mem_map.mp hr
  exact offStart_strict _ _ u hb

theorem clamp_spec_witness :
    clampThreads 7 3 = min 7 3 :=
  (clamp_spec 7 3 (by decide) (by decide)).1

/-- C6: with no argument the worker count is the default 4; an argument whose
`atoi` value is non-positive (including unparsable strings, which `atoi`
maps to 0) also yields 4; and the selection is total and always positive, so
configuration handling never fails the run. -/
theorem workerCount_default_spec :
    workerCount none = 4 ∧
    (∀ cs, atoi cs ≤ 0 → workerCount (some cs) = 4) ∧
    (∀ arg, 1 ≤ workerCount arg) := by
  refine ⟨rfl, ?_, ?_⟩
  · intro cs h
    show (if atoi cs > 0 then atoi cs else 4) = 4
    rw [if_neg (by omega)]
  · intro arg
    cases arg with
    | none => norm_num [workerCount]
    | some cs =>
        show (1 : Int) ≤ if atoi cs > 0 then atoi cs else 4
        split_ifs with h
        · omega
        · norm_num

theorem workerCount_default_spec_witness :
    atoi ['x'] ≤ 0 ∧ workerCount (some ['x']) = 4 :=
  ⟨by decide, workerCount_default_spec.2.1 ['x'] (by decide)⟩

/-- C7: each output cell is accumulated in fixed-width 64-bit signed
arithmetic: the result is the two's-complement wrap of the exact inner
product, always lies in `[-2^63, 2^63)`, and an overflowing accumulation
(here `2^32 * 2^32`) silently wraps to an in-range value rather than being
detected — the accumulator is a total function with no error outcome. -/
theorem accumulator_wraps (a b : Nat → Int) (N : Nat) :
    dotWrap a b N = wrap64 (Finset.sum (Finset.range N) fun k => a k * b k) ∧
    (-(2 ^ 63) ≤ dotWrap a b N ∧ dotWrap a b N < 2 ^ 63) ∧
    dotWrap (fun _ => 2 ^ 32) (fun _ => 2 ^ 32) 1 = 0 := by
  refine ⟨dotWrap_eq a b N, ?_, by decide⟩
  rw [dotWrap_eq]
  exact wrap64_bounds _

/-- C8: a worker running `multiply_range` over `[s, e)` writes only rows of
`C` inside `[s, e)`: every cell in a row outside that interval keeps its
previous value (the operands are read-only inputs of the embedding and are
untouched by construction). -/
theorem multiplyRange_frame (A Bt : Mat) (N s e : Nat) (C : Mat) (i j : Nat)
    (h : i < s ∨ e ≤ i) :
    multiplyRange A Bt N s e C i j = C i j := by
  rw [multiplyRange_apply, if_neg]
  rintro ⟨h1, h2, _⟩
  omega

theorem multiplyRange_frame_witness :
    multiplyRange (matA 2) (matBt 2) 2 0 1 matC0 1 0 = matC0 1 0 :=
  multiplyRange_frame (matA 2) (matBt 2) 2 0 1 matC0 1 0 (Or.inr (by decide))

/-- C9: composing the worker routine `multiply_range` over any family of row
ranges that covers `[0, N)` and stays inside it produces exactly the matrix
computed by the serial routine `multiply` — the partitioned and serial
implementations are equivalent. -/
theorem serial_partitioned_equiv (A Bt : Mat) (N : Nat) (C : Mat)
    (rs : List (Nat × Nat))
    (hcov : ∀ i, i < N → ∃ r ∈ rs, r.1 ≤ i ∧ i < r.2)
    (hsub : ∀ r ∈ rs, r.2 ≤ N) :
    runRanges A Bt N rs C = multiply A Bt N C := by
  funext a b
  rw [runRanges_apply, multiply_apply]
  by_cases hb : b < N
  · by_cases ha : a < N
    · rw [if_pos ⟨hcov a ha, hb⟩, if_pos ⟨ha, hb⟩]
    · rw [if_neg, if_neg (by rintro ⟨h, _⟩; exact ha h)]
      rintro ⟨⟨r, hr, _, h2⟩, _⟩
      have := hsub r hr
      omega
  · rw [if_neg (by rintro ⟨_, h⟩; exact hb h),
      if_neg (by rintro ⟨_, h⟩; exact hb h)]

theorem serial_partitioned_equiv_witness :
    runRanges (matA 2) (matBt 2) 2 [(0, 1), (1, 2)] matC0 =
      multiply (matA 2) (matBt 2) 2 matC0 :=
  serial_partitioned_equiv (matA 2) (matBt 2) 2 matC0 [(0, 1), (1, 2)]
    (by decide) (by decide)

/-- C10: an argument with a positive decimal-numeric prefix (e.g. `"7abc"`)
yields that prefix value as the worker count, not the default 4; only
arguments whose `atoi` value is non-positive (including fully non-numeric
strings) fall back to the default. -/
theorem cli_numeric_arg (cs : List Char) :
    (0 < atoi cs → workerCount (some cs) = atoi cs) ∧
    (atoi cs ≤ 0 → workerCount (some cs) = 4) ∧
    atoi ['7', 'a', 'b', 'c'] = 7 ∧
    workerCount (some ['7', 'a', 'b', 'c']) = 7 := by
  refine ⟨?_, ?_, by decide, by decide⟩
  · intro h
    show (if atoi cs > 0 then atoi cs else 4) = atoi cs
    rw [if_pos h]
  · intro h
    show (if atoi cs > 0 then atoi cs else 4) = 4
    rw [if_neg (by omega)]

theorem cli_numeric_arg_witness :
    0 < atoi ['9'] ∧ workerCount (some ['9']) = atoi ['9'] :=
  ⟨by decide, (cli_numeric_arg ['9']).1 (by decide)⟩
